import Mathlib

/-!
Verification of the snake-drill-trainer core against its specification.

The drill generator (`src/services/drillGenerator.ts`), the speech cue
player (`src/services/speech.ts`) and the immediate-finish decision of the
playback component (`src/components/DrillRunner.tsx`) are shallowly embedded
below.  TypeScript numbers that the program uses as integers (traverse,
elevation, click values, bounds) are embedded as `Int`; real-valued timing
and speech-rate arithmetic is embedded as `ℚ`; `Math.random()`-driven
choices are embedded as an explicit oracle of choice functions, so that a
theorem quantified over the oracle covers every outcome of the random
choices the program can make.
-/

/-- The four command directions (`src/types.ts`, enum `Direction`). -/
inductive Direction where
  | Up
  | Down
  | Left
  | Right
deriving DecidableEq

/-- A drill command (`src/types.ts`, interface `DrillCommand`):
a direction plus a click value. -/
structure DrillCommand where
  direction : Direction
  value : Int
deriving DecidableEq

/-- Default used only to give list indexing a total type; every indexing
the embedded code performs is proved in range, so the default is never read. -/
def defaultCommand : DrillCommand := ⟨Direction.Up, 0⟩

/-- `isMoveValid` from `src/services/drillGenerator.ts` (lines 11-30):
whether applying `command` from the simulated state stays within the bound.
The TypeScript `default` branch is unreachable because `Direction` is a
closed enum, so the four cases are exhaustive here. -/
def isMoveValid (command : DrillCommand) (currentTraverse currentElevation maxTAndE : Int) :
    Bool :=
  match command.direction with
  | Direction.Up => decide (currentElevation + command.value ≤ maxTAndE)
  | Direction.Down => decide (currentElevation - command.value ≥ -maxTAndE)
  | Direction.Left => decide (currentTraverse - command.value ≥ -maxTAndE)
  | Direction.Right => decide (currentTraverse + command.value ≤ maxTAndE)

/-- The traverse component of the generator's simulated-state switch
(`simTraverse += / -= value` for Right / Left, unchanged otherwise). -/
def applyCommandT (c : DrillCommand) (simTraverse : Int) : Int :=
  match c.direction with
  | Direction.Left => simTraverse - c.value
  | Direction.Right => simTraverse + c.value
  | _ => simTraverse

/-- The elevation component of the generator's simulated-state switch
(`simElevation += / -= value` for Up / Down, unchanged otherwise). -/
def applyCommandE (c : DrillCommand) (simElevation : Int) : Int :=
  match c.direction with
  | Direction.Up => simElevation + c.value
  | Direction.Down => simElevation - c.value
  | _ => simElevation

/-- Signed elevation-axis magnitude of one command (Up positive, Down
negative, horizontal commands contribute nothing). -/
def elevDelta (c : DrillCommand) : Int :=
  match c.direction with
  | Direction.Up => c.value
  | Direction.Down => -c.value
  | _ => 0

/-- Signed traverse-axis magnitude of one command (Right positive, Left
negative, vertical commands contribute nothing). -/
def travDelta (c : DrillCommand) : Int :=
  match c.direction with
  | Direction.Right => c.value
  | Direction.Left => -c.value
  | _ => 0

/-- Signed sum of the elevation-axis magnitudes of a sequence. -/
def sumElevSigned (l : List DrillCommand) : Int := (l.map elevDelta).sum

/-- Signed sum of the traverse-axis magnitudes of a sequence. -/
def sumTravSigned (l : List DrillCommand) : Int := (l.map travDelta).sum

/-- Position (traverse, elevation) reached after applying a whole sequence
as signed deltas starting from (0, 0). -/
def posAfter (l : List DrillCommand) : Int × Int :=
  l.foldl (fun p c => (applyCommandT c p.1, applyCommandE c p.2)) (0, 0)

/-- Both axes of a position lie within `[-maxTAndE, maxTAndE]`. -/
def inBounds (p : Int × Int) (maxTAndE : Int) : Prop :=
  -maxTAndE ≤ p.1 ∧ p.1 ≤ maxTAndE ∧ -maxTAndE ≤ p.2 ∧ p.2 ≤ maxTAndE

instance (p : Int × Int) (b : Int) : Decidable (inBounds p b) := by
  unfold inBounds; infer_instance

/-- The random choices one `generateDrill` call may consume, one family per
generation attempt: `pickVal attempt i` selects the click value of the i-th
positive command (used modulo the list length, so every run of
`Math.floor(Math.random() * clickValues.length)` is some oracle),
`coin attempt i` is the `Math.random() > 0.5` axis choice, and
`pickMove attempt step` selects among the currently valid moves (again used
modulo the number of valid moves). -/
structure Oracle where
  pickVal : Nat → Nat → Nat
  coin : Nat → Nat → Bool
  pickMove : Nat → Nat → Nat

/-- The oracle whose every numeric choice is 0 and every coin is false;
used to evaluate the generator on concrete inputs. -/
def zeroOracle : Oracle := ⟨fun _ _ => 0, fun _ _ => false, fun _ _ => 0⟩

/-- `numCommands % 2 === 0 ? numCommands : numCommands + 1`
(drillGenerator.ts line 41): the command count rounded up to even. -/
def totalCommands (numCommands : Nat) : Nat :=
  if numCommands % 2 = 0 then numCommands else numCommands + 1

/-- `totalCommands / 2` (drillGenerator.ts line 42). -/
def halfCommands (numCommands : Nat) : Nat := totalCommands numCommands / 2

/-- The half of the drill made of "positive" movements (drillGenerator.ts
lines 45-49): for each `i < halfCommands`, a uniformly random click value
and a random choice between Right (horizontal) and Up (vertical). -/
def positiveCommandsOf (numCommands : Nat) (clickValues : List Int)
    (pickVal : Nat → Nat) (coin : Nat → Bool) : List DrillCommand :=
  (List.range (halfCommands numCommands)).map fun i =>
    ⟨if coin i then Direction.Right else Direction.Up,
     clickValues.getD (pickVal i % clickValues.length) 0⟩

/-- The exact opposite of one command (drillGenerator.ts lines 52-55):
Right becomes Left, anything else (only Up occurs) becomes Down,
the value is kept. -/
def mirrorCommand (command : DrillCommand) : DrillCommand :=
  ⟨if command.direction = Direction.Right then Direction.Left else Direction.Down,
   command.value⟩

/-- `validMoveIndices` (drillGenerator.ts lines 64-66): the indices into the
pool whose command is a valid move from the current simulated state. -/
def validMoveIndices (availableCommands : List DrillCommand)
    (simTraverse simElevation maxTAndE : Int) : List Nat :=
  (List.range availableCommands.length).filter fun index =>
    isMoveValid (availableCommands.getD index defaultCommand) simTraverse simElevation maxTAndE

/-- The pool index the generator picks this iteration: a uniformly random
element of `validMoveIndices` (drillGenerator.ts line 73), the randomness
supplied by `pickMove` at the current step counter. -/
def chooseIdx (availableCommands : List DrillCommand)
    (simTraverse simElevation maxTAndE : Int) (pickMove : Nat → Nat) (step : Nat) : Nat :=
  (validMoveIndices availableCommands simTraverse simElevation maxTAndE).getD
    (pickMove step % (validMoveIndices availableCommands simTraverse simElevation maxTAndE).length) 0

/-- The command the generator splices out of the pool this iteration. -/
def chosenCmd (availableCommands : List DrillCommand)
    (simTraverse simElevation maxTAndE : Int) (pickMove : Nat → Nat) (step : Nat) : DrillCommand :=
  availableCommands.getD (chooseIdx availableCommands simTraverse simElevation maxTAndE pickMove step)
    defaultCommand

/-- The generator's inner `while (availableCommands.length > 0)` loop
(drillGenerator.ts lines 63-88).  Each iteration removes exactly one command
from the pool, so running the loop with `fuel` initially equal to the pool
length reproduces it exactly: the loop exits with the accumulated
`finalDrill` either when the pool is exhausted (success) or when no
remaining move is valid (stuck, `break`) — `validMoveIndices` is empty in
both cases. -/
def buildDrill (maxTAndE : Int) (pickMove : Nat → Nat) :
    Nat → List DrillCommand → List DrillCommand → Int → Int → Nat → List DrillCommand
  | 0, _, finalDrill, _, _, _ => finalDrill
  | fuel + 1, availableCommands, finalDrill, simTraverse, simElevation, step =>
    if validMoveIndices availableCommands simTraverse simElevation maxTAndE = [] then
      finalDrill
    else
      buildDrill maxTAndE pickMove fuel
        (availableCommands.eraseIdx
          (chooseIdx availableCommands simTraverse simElevation maxTAndE pickMove step))
        (finalDrill ++ [chosenCmd availableCommands simTraverse simElevation maxTAndE pickMove step])
        (applyCommandT (chosenCmd availableCommands simTraverse simElevation maxTAndE pickMove step)
          simTraverse)
        (applyCommandE (chosenCmd availableCommands simTraverse simElevation maxTAndE pickMove step)
          simElevation)
        (step + 1)

/-- One generation attempt (drillGenerator.ts lines 41-88): build the
balanced pool — a random positive half plus its mirrored negative half —
and run the ordering loop from position (0, 0). -/
def attemptDrill (numCommands : Nat) (clickValues : List Int) (maxTAndE : Int)
    (pickVal : Nat → Nat) (coin : Nat → Bool) (pickMove : Nat → Nat) : List DrillCommand :=
  let positiveCommands := positiveCommandsOf numCommands clickValues pickVal coin
  let availableCommands := positiveCommands ++ positiveCommands.map mirrorCommand
  buildDrill maxTAndE pickMove availableCommands.length availableCommands [] 0 0 0

/-- `MAX_GENERATION_ATTEMPTS` (drillGenerator.ts line 39). -/
def MAX_GENERATION_ATTEMPTS : Nat := 10

/-- The retry loop (drillGenerator.ts lines 40-97): run attempts until one
produces a full-length drill or the attempt budget is exhausted.  Returns
the drill together with the number of attempts performed. -/
def generateDrillGo (numCommands : Nat) (clickValues : List Int) (maxTAndE : Int)
    (o : Oracle) : Nat → Nat → List DrillCommand × Nat
  | 0, attempt => ([], attempt)
  | fuel + 1, attempt =>
    let finalDrill :=
      attemptDrill numCommands clickValues maxTAndE
        (o.pickVal attempt) (o.coin attempt) (o.pickMove attempt)
    if finalDrill.length = totalCommands numCommands then (finalDrill, attempt + 1)
    else generateDrillGo numCommands clickValues maxTAndE o fuel (attempt + 1)

/-- `generateDrill` (drillGenerator.ts lines 32-98) paired with the number
of generation attempts it performed: the infeasibility guard (lines 33-36)
returns an empty drill with zero attempts; otherwise up to
`MAX_GENERATION_ATTEMPTS` attempts run. -/
def generateDrillRun (numCommands : Nat) (clickValues : List Int) (maxTAndE : Int)
    (o : Oracle) : List DrillCommand × Nat :=
  if clickValues.length = 0 ∨ ∃ v ∈ clickValues, maxTAndE < v then ([], 0)
  else generateDrillGo numCommands clickValues maxTAndE o MAX_GENERATION_ATTEMPTS 0

/-- `generateDrill`'s return value: the ordered command list. -/
def generateDrill (numCommands : Nat) (clickValues : List Int) (maxTAndE : Int)
    (o : Oracle) : List DrillCommand :=
  (generateDrillRun numCommands clickValues maxTAndE o).1

/-! ## Speech cue service (`src/services/speech.ts`) -/

/-- The string the `Direction` enum values carry (`src/types.ts`):
`Up = 'UP'`, etc.  This is what string interpolation of a direction yields. -/
def dirToString : Direction → String
  | Direction.Up => "UP"
  | Direction.Down => "DOWN"
  | Direction.Left => "LEFT"
  | Direction.Right => "RIGHT"

/-- `commandToKey` (speech.ts line 9): the template string
`${command.direction}_${command.value}`. -/
def commandToKey (command : DrillCommand) : String :=
  dirToString command.direction ++ "_" ++ toString command.value

/-- A cached `SpeechSynthesisUtterance`: the fields `preload` sets. -/
structure Utterance where
  text : String
  pitch : ℚ
  volume : ℚ
deriving DecidableEq

/-- The utterance cache: a JS `Map` from key strings to utterances,
embedded as an association list in insertion order; `mapSet` replaces the
value of an existing key in place and appends a fresh key at the end,
matching `Map.prototype.set`. -/
def mapSet (m : List (String × Utterance)) (k : String) (v : Utterance) :
    List (String × Utterance) :=
  if m.any (fun p => decide (p.1 = k)) then
    m.map (fun p => if p.1 = k then (k, v) else p)
  else m ++ [(k, v)]

/-- `Map.prototype.get`: the value stored at a key, if any. -/
def mapGet (m : List (String × Utterance)) (k : String) : Option Utterance :=
  (m.find? (fun p => decide (p.1 = k))).map (fun p => p.2)

/-- The fixed direction list `preload` iterates over (speech.ts line 48). -/
def directionsList : List Direction :=
  [Direction.Up, Direction.Down, Direction.Left, Direction.Right]

/-- The utterance `preload` builds for one (direction, value) combination
(speech.ts lines 52-56): text `${direction} ${value}`, pitch 1, volume 1. -/
def utteranceFor (direction : Direction) (value : Int) : Utterance :=
  ⟨dirToString direction ++ " " ++ toString value, 1, 1⟩

/-- The inner `for (const direction of directions)` loop of `preload` for
one click value. -/
def preloadValue (cache : List (String × Utterance)) (value : Int) :
    List (String × Utterance) :=
  directionsList.foldl
    (fun acc direction => mapSet acc (commandToKey ⟨direction, value⟩) (utteranceFor direction value))
    cache

/-- `preload` (speech.ts lines 45-60): a no-op when speech synthesis is
unsupported; otherwise the cache is cleared and one utterance is cached for
every (click value, direction) combination. -/
def preload (isSupported : Bool) (utteranceCache : List (String × Utterance))
    (clickValues : List Int) : List (String × Utterance) :=
  if !isSupported then utteranceCache
  else clickValues.foldl preloadValue []

/-- `Math.round` on an exact rational: round half toward positive infinity. -/
def jsRound (q : ℚ) : ℤ := ⌊q + 1/2⌋

/-- `calculateAutoSpeed` (speech.ts lines 67-78): base rate 2.0 when the
interval is at least one second, otherwise 2.0 plus 0.3 per step, the step
count being `(1 - interval) * 10` rounded to the nearest integer. -/
def calculateAutoSpeed (interval : ℚ) : ℚ :=
  if interval ≥ 1 then 2
  else 2 + (jsRound ((1 - interval) * 10) : ℚ) * (3/10)

/-- The externally observable effects one `play` call can perform, in
order: cancelling in-flight speech, speaking at a clamped rate, or warning
that a command was not preloaded. -/
inductive SpeechAction where
  | cancel
  | speak (rate : ℚ)
  | warnNotPreloaded
deriving DecidableEq

/-- `play` (speech.ts lines 87-113) as its ordered effect trace: nothing
when unsupported; only a warning when the command's utterance is not in the
cache (the early `return` precedes the `cancel()` call); otherwise a cancel
followed by speaking at the manual or automatic rate clamped into
`[0.5, 10]`. -/
def play (isSupported : Bool) (utteranceCache : List (String × Utterance))
    (command : DrillCommand) (interval : ℚ) (manualSpeed : Bool) (speedMultiplier : ℚ) :
    List SpeechAction :=
  if !isSupported then []
  else
    match mapGet utteranceCache (commandToKey command) with
    | none => [SpeechAction.warnNotPreloaded]
    | some _ =>
      [SpeechAction.cancel,
       SpeechAction.speak
         (min 10 (max (1/2) (if manualSpeed then speedMultiplier else calculateAutoSpeed interval)))]

/-- Transcription of the claimed auto-speed rule, following the claim's
words "2.0 plus 0.3 for every full 0.1s that interval falls below 1.0s":
the number of FULL 0.1-second steps below one second is the floor of
`(1 - interval) * 10`.  Kept separate from `calculateAutoSpeed` (which is
the code's rounding rule) so the two can be compared. -/
def autoSpeedSpecFloor (interval : ℚ) : ℚ :=
  if interval ≥ 1 then 2
  else 2 + (⌊(1 - interval) * 10⌋ : ℚ) * (3/10)

/-! ## Playback scheduler (`src/components/DrillRunner.tsx`) -/

/-- The immediate-finish decision of the DrillRunner effect (DrillRunner.tsx
lines 47-54), given the command list, the current command index and the last
simulated position: when `commands[currentCommandIndex]` is undefined the
effect calls `onFinish` with the last simulated position — but only if
`commands.length > 0`; with a command present it schedules timers instead
and no immediate finish happens.  Returns the position delivered to
`onFinish` now, if any. -/
def drillRunnerStep (commands : List DrillCommand) (currentCommandIndex : Nat)
    (lastPos : Int × Int) : Option (Int × Int) :=
  match commands.get? currentCommandIndex with
  | none => if 0 < commands.length then some lastPos else none
  | some _ => none

/-! ## List helper lemmas -/

lemma getD_mem_of_lt {α : Type} : ∀ (l : List α) (k : Nat) (d : α), k < l.length →
    l.getD k d ∈ l := by
  intro l
  induction l with
  | nil => intro k d h; simp at h
  | cons a l ih =>
    intro k d h
    cases k with
    | zero => simp
    | succ k =>
      simp only [List.getD_cons_succ, List.mem_cons]
      exact Or.inr (ih k d (by simpa using h))

lemma length_eraseIdx_add_one {α : Type} : ∀ (l : List α) (j : Nat), j < l.length →
    (l.eraseIdx j).length + 1 = l.length := by
  intro l
  induction l with
  | nil => intro j h; simp at h
  | cons a l ih =>
    intro j h
    cases j with
    | zero => simp
    | succ j =>
      simp only [List.eraseIdx_cons_succ, List.length_cons]
      rw [ih j (by simpa using h)]

lemma mem_of_mem_eraseIdx {α : Type} : ∀ (l : List α) (j : Nat) (a : α),
    a ∈ l.eraseIdx j → a ∈ l := by
  intro l
  induction l with
  | nil => intro j a h; simp [List.eraseIdx] at h
  | cons b l ih =>
    intro j a h
    cases j with
    | zero => exact List.mem_cons_of_mem b h
    | succ j =>
      simp only [List.eraseIdx_cons_succ, List.mem_cons] at h
      rcases h with h | h
      · exact h ▸ List.mem_cons_self b l
      · exact List.mem_cons_of_mem b (ih j a h)

lemma sum_map_eraseIdx {α : Type} (f : α → Int) (d : α) :
    ∀ (l : List α) (j : Nat), j < l.length →
    ((l.eraseIdx j).map f).sum = (l.map f).sum - f (l.getD j d) := by
  intro l
  induction l with
  | nil => intro j h; simp at h
  | cons a l ih =>
    intro j h
    cases j with
    | zero => simp
    | succ j =>
      simp only [List.eraseIdx_cons_succ, List.map_cons, List.sum_cons, List.getD_cons_succ]
      rw [ih j (by simpa using h)]
      ring

lemma perm_getD_cons_eraseIdx {α : Type} (d : α) : ∀ (l : List α) (j : Nat), j < l.length →
    (l.getD j d :: l.eraseIdx j).Perm l := by
  intro l
  induction l with
  | nil => intro j h; simp at h
  | cons a l ih =>
    intro j h
    cases j with
    | zero => simp
    | succ j =>
      simp only [List.getD_cons_succ, List.eraseIdx_cons_succ]
      exact (List.Perm.swap a (l.getD j d) (l.eraseIdx j)).trans
        ((ih j (by simpa using h)).cons a)

lemma sum_map_add_map (f g : DrillCommand → Int) : ∀ (l : List DrillCommand),
    (l.map f).sum + (l.map g).sum = (l.map (fun c => f c + g c)).sum := by
  intro l
  induction l with
  | nil => simp
  | cons a l ih => simp only [List.map_cons, List.sum_cons]; rw [← ih]; ring

lemma sum_neg_exists : ∀ (l : List Int), l.sum < 0 → ∃ x ∈ l, x < 0 := by
  intro l
  induction l with
  | nil => intro h; simp at h
  | cons a l ih =>
    intro h
    simp only [List.sum_cons] at h
    by_cases ha : a < 0
    · exact ⟨a, List.mem_cons_self a l, ha⟩
    · obtain ⟨x, hx, hx0⟩ := ih (by omega)
      exact ⟨x, List.mem_cons_of_mem a hx, hx0⟩

lemma sum_pos_exists : ∀ (l : List Int), 0 < l.sum → ∃ x ∈ l, 0 < x := by
  intro l
  induction l with
  | nil => intro h; simp at h
  | cons a l ih =>
    intro h
    simp only [List.sum_cons] at h
    by_cases ha : 0 < a
    · exact ⟨a, List.mem_cons_self a l, ha⟩
    · obtain ⟨x, hx, hx0⟩ := ih (by omega)
      exact ⟨x, List.mem_cons_of_mem a hx, hx0⟩

lemma subperm_of_length_eq {α : Type} {l₁ l₂ : List α} (h : List.Subperm l₁ l₂)
    (hl : l₁.length = l₂.length) : l₁.Perm l₂ := by
  obtain ⟨w, hw, hsub⟩ := h
  have hwl : w.length = l₂.length := by rw [hw.length_eq, hl]
  rw [hsub.eq_of_length hwl] at hw
  exact hw.symm

/-! ## Facts about the generator's move selection -/

lemma mem_validMoveIndices {pool : List DrillCommand} {t e b : Int} {i : Nat} :
    i ∈ validMoveIndices pool t e b ↔
      i < pool.length ∧ isMoveValid (pool.getD i defaultCommand) t e b = true := by
  simp [validMoveIndices, List.mem_filter, List.mem_range]

lemma validMoveIndices_nil {t e b : Int} : validMoveIndices [] t e b = [] := rfl

lemma isMoveValid_false_of_validMoveIndices_nil {pool : List DrillCommand} {t e b : Int}
    (h : validMoveIndices pool t e b = []) :
    ∀ c ∈ pool, isMoveValid c t e b = false := by
  intro c hc
  obtain ⟨i, hi, rfl⟩ := List.getElem_of_mem hc
  by_contra hval
  have hv : isMoveValid pool[i] t e b = true := by
    cases hb : isMoveValid pool[i] t e b with
    | false => exact absurd hb hval
    | true => rfl
  have : i ∈ validMoveIndices pool t e b := by
    rw [mem_validMoveIndices]
    exact ⟨hi, by rwa [List.getD_eq_getElem pool defaultCommand hi]⟩
  rw [h] at this
  exact List.not_mem_nil i this

lemma chooseIdx_mem {pool : List DrillCommand} {t e b : Int} {pick : Nat → Nat} {step : Nat}
    (h : validMoveIndices pool t e b ≠ []) :
    chooseIdx pool t e b pick step ∈ validMoveIndices pool t e b := by
  unfold chooseIdx
  apply getD_mem_of_lt
  exact Nat.mod_lt _ (List.length_pos.mpr h)

lemma chooseIdx_lt {pool : List DrillCommand} {t e b : Int} {pick : Nat → Nat} {step : Nat}
    (h : validMoveIndices pool t e b ≠ []) :
    chooseIdx pool t e b pick step < pool.length :=
  (mem_validMoveIndices.mp (chooseIdx_mem h)).1

lemma chosenCmd_mem {pool : List DrillCommand} {t e b : Int} {pick : Nat → Nat} {step : Nat}
    (h : validMoveIndices pool t e b ≠ []) :
    chosenCmd pool t e b pick step ∈ pool :=
  getD_mem_of_lt pool _ defaultCommand (chooseIdx_lt h)

lemma chosenCmd_valid {pool : List DrillCommand} {t e b : Int} {pick : Nat → Nat} {step : Nat}
    (h : validMoveIndices pool t e b ≠ []) :
    isMoveValid (chosenCmd pool t e b pick step) t e b = true :=
  (mem_validMoveIndices.mp (chooseIdx_mem h)).2

/-! ## Invariants of the ordering loop `buildDrill` -/

lemma buildDrill_subperm (maxT : Int) (pick : Nat → Nat) :
    ∀ (fuel : Nat) (pool acc : List DrillCommand) (t e : Int) (step : Nat),
      pool.length = fuel →
      ∃ d, buildDrill maxT pick fuel pool acc t e step = acc ++ d ∧ List.Subperm d pool := by
  intro fuel
  induction fuel with
  | zero =>
    intro pool acc t e step hlen
    exact ⟨[], by simp [buildDrill], List.nil_subperm⟩
  | succ fuel ih =>
    intro pool acc t e step hlen
    by_cases hv : validMoveIndices pool t e maxT = []
    · exact ⟨[], by simp [buildDrill, hv], List.nil_subperm⟩
    · have hj : chooseIdx pool t e maxT pick step < pool.length := chooseIdx_lt hv
      have hlen' : (pool.eraseIdx (chooseIdx pool t e maxT pick step)).length = fuel := by
        have := length_eraseIdx_add_one pool _ hj
        omega
      obtain ⟨d, hd, hsub⟩ :=
        ih (pool.eraseIdx (chooseIdx pool t e maxT pick step))
          (acc ++ [chosenCmd pool t e maxT pick step])
          (applyCommandT (chosenCmd pool t e maxT pick step) t)
          (applyCommandE (chosenCmd pool t e maxT pick step) e)
          (step + 1) hlen'
      refine ⟨chosenCmd pool t e maxT pick step :: d, ?_, ?_⟩
      · rw [buildDrill, if_neg hv, hd]
        simp
      · have h1 : List.Subperm (chosenCmd pool t e maxT pick step :: d)
            (chosenCmd pool t e maxT pick step :: pool.eraseIdx (chooseIdx pool t e maxT pick step)) :=
          (List.subperm_cons _).mpr hsub
        exact h1.trans (perm_getD_cons_eraseIdx defaultCommand pool _ hj).subperm

lemma applyCommandE_eq_add (c : DrillCommand) (e : Int) :
    applyCommandE c e = e + elevDelta c := by
  unfold applyCommandE elevDelta
  cases c.direction <;> ring

lemma applyCommandT_eq_add (c : DrillCommand) (t : Int) :
    applyCommandT c t = t + travDelta c := by
  unfold applyCommandT travDelta
  cases c.direction <;> ring

lemma posAfter_append_singleton (l : List DrillCommand) (c : DrillCommand) :
    posAfter (l ++ [c]) = (applyCommandT c (posAfter l).1, applyCommandE c (posAfter l).2) := by
  unfold posAfter
  rw [List.foldl_append]
  rfl

lemma inBounds_applyCommand {c : DrillCommand} {t e b : Int}
    (hval : isMoveValid c t e b = true) (hpos : 0 < c.value) (hb : inBounds (t, e) b) :
    inBounds (applyCommandT c t, applyCommandE c e) b := by
  obtain ⟨h1, h2, h3, h4⟩ := hb
  obtain ⟨dir, v⟩ := c
  simp only at hpos
  cases dir <;>
    simp only [isMoveValid, applyCommandT, applyCommandE, inBounds, decide_eq_true_eq] at * <;>
    omega

lemma buildDrill_bounds (maxT : Int) (pick : Nat → Nat) :
    ∀ (fuel : Nat) (pool acc : List DrillCommand) (t e : Int) (step : Nat),
      pool.length = fuel →
      (∀ c ∈ pool, 0 < c.value) →
      posAfter acc = (t, e) →
      (∀ k : Nat, inBounds (posAfter (acc.take k)) maxT) →
      ∀ k : Nat, inBounds (posAfter ((buildDrill maxT pick fuel pool acc t e step).take k)) maxT := by
  intro fuel
  induction fuel with
  | zero =>
    intro pool acc t e step _ _ _ hpre k
    simpa [buildDrill] using hpre k
  | succ fuel ih =>
    intro pool acc t e step hlen hval hacc hpre k
    by_cases hv : validMoveIndices pool t e maxT = []
    · simpa [buildDrill, hv] using hpre k
    · rw [buildDrill, if_neg hv]
      have hj : chooseIdx pool t e maxT pick step < pool.length := chooseIdx_lt hv
      have hte : inBounds (t, e) maxT := by
        have := hpre acc.length
        rwa [List.take_length, hacc] at this
      have hstep : inBounds (applyCommandT (chosenCmd pool t e maxT pick step) t,
          applyCommandE (chosenCmd pool t e maxT pick step) e) maxT :=
        inBounds_applyCommand (chosenCmd_valid hv) (hval _ (chosenCmd_mem hv)) hte
      refine ih (pool.eraseIdx _) (acc ++ [chosenCmd pool t e maxT pick step]) _ _ (step + 1)
        ?_ ?_ ?_ ?_ k
      · have := length_eraseIdx_add_one pool _ hj
        omega
      · intro c hc
        exact hval c (mem_of_mem_eraseIdx pool _ c hc)
      · rw [posAfter_append_singleton, hacc]
      · intro m
        by_cases hm : m ≤ acc.length
        · rw [List.take_append_of_le_length hm]
          exact hpre m
        · rw [List.take_of_length_le (by simp; omega)]
          rw [posAfter_append_singleton, hacc]
          exact hstep

/-! ## The scenario pool (single click value 5, bound 25) never gets stuck -/

lemma down_mem_of_sumElev_neg {pool : List DrillCommand}
    (hval : ∀ c ∈ pool, c.value = 5) (h : sumElevSigned pool < 0) :
    (⟨Direction.Down, 5⟩ : DrillCommand) ∈ pool := by
  obtain ⟨x, hx, hx0⟩ := sum_neg_exists _ h
  obtain ⟨c, hc, rfl⟩ := List.mem_map.mp hx
  obtain ⟨dir, v⟩ := c
  have hv5 : v = 5 := hval _ hc
  subst hv5
  cases dir with
  | Up => simp [elevDelta] at hx0
  | Down => exact hc
  | Left => simp [elevDelta] at hx0
  | Right => simp [elevDelta] at hx0

lemma up_mem_of_sumElev_pos {pool : List DrillCommand}
    (hval : ∀ c ∈ pool, c.value = 5) (h : 0 < sumElevSigned pool) :
    (⟨Direction.Up, 5⟩ : DrillCommand) ∈ pool := by
  obtain ⟨x, hx, hx0⟩ := sum_pos_exists _ h
  obtain ⟨c, hc, rfl⟩ := List.mem_map.mp hx
  obtain ⟨dir, v⟩ := c
  have hv5 : v = 5 := hval _ hc
  subst hv5
  cases dir with
  | Up => exact hc
  | Down => simp [elevDelta] at hx0
  | Left => simp [elevDelta] at hx0
  | Right => simp [elevDelta] at hx0

lemma left_mem_of_sumTrav_neg {pool : List DrillCommand}
    (hval : ∀ c ∈ pool, c.value = 5) (h : sumTravSigned pool < 0) :
    (⟨Direction.Left, 5⟩ : DrillCommand) ∈ pool := by
  obtain ⟨x, hx, hx0⟩ := sum_neg_exists _ h
  obtain ⟨c, hc, rfl⟩ := List.mem_map.mp hx
  obtain ⟨dir, v⟩ := c
  have hv5 : v = 5 := hval _ hc
  subst hv5
  cases dir with
  | Up => simp [travDelta] at hx0
  | Down => simp [travDelta] at hx0
  | Left => exact hc
  | Right => simp [travDelta] at hx0

lemma right_mem_of_sumTrav_pos {pool : List DrillCommand}
    (hval : ∀ c ∈ pool, c.value = 5) (h : 0 < sumTravSigned pool) :
    (⟨Direction.Right, 5⟩ : DrillCommand) ∈ pool := by
  obtain ⟨x, hx, hx0⟩ := sum_pos_exists _ h
  obtain ⟨c, hc, rfl⟩ := List.mem_map.mp hx
  obtain ⟨dir, v⟩ := c
  have hv5 : v = 5 := hval _ hc
  subst hv5
  cases dir with
  | Up => simp [travDelta] at hx0
  | Down => simp [travDelta] at hx0
  | Left => simp [travDelta] at hx0
  | Right => exact hc

lemma validMoveIndices_ne_nil_of_balanced {pool : List DrillCommand} {t e : Int}
    (hval : ∀ c ∈ pool, c.value = 5)
    (hE : sumElevSigned pool = -e) (hT : sumTravSigned pool = -t)
    (hne : pool ≠ []) :
    validMoveIndices pool t e 25 ≠ [] := by
  intro h
  have hall := isMoveValid_false_of_validMoveIndices_nil h
  obtain ⟨c0, hc0⟩ := List.exists_mem_of_ne_nil pool hne
  obtain ⟨dir, v⟩ := c0
  have hv5 : v = 5 := hval _ hc0
  subst hv5
  cases dir with
  | Up =>
    have h1 : ¬((5:Int) + e ≤ 25) := by
      have := hall _ hc0
      simp [isMoveValid] at this
      omega
    have hdown : (⟨Direction.Down, 5⟩ : DrillCommand) ∈ pool :=
      down_mem_of_sumElev_neg hval (by omega)
    have h2 := hall _ hdown
    simp [isMoveValid] at h2
    omega
  | Down =>
    have h1 : ¬(-(25:Int) ≤ e - 5) := by
      have := hall _ hc0
      simp [isMoveValid] at this
      omega
    have hup : (⟨Direction.Up, 5⟩ : DrillCommand) ∈ pool :=
      up_mem_of_sumElev_pos hval (by omega)
    have h2 := hall _ hup
    simp [isMoveValid] at h2
    omega
  | Left =>
    have h1 : ¬(-(25:Int) ≤ t - 5) := by
      have := hall _ hc0
      simp [isMoveValid] at this
      omega
    have hright : (⟨Direction.Right, 5⟩ : DrillCommand) ∈ pool :=
      right_mem_of_sumTrav_pos hval (by omega)
    have h2 := hall _ hright
    simp [isMoveValid] at h2
    omega
  | Right =>
    have h1 : ¬((5:Int) + t ≤ 25) := by
      have := hall _ hc0
      simp [isMoveValid] at this
      omega
    have hleft : (⟨Direction.Left, 5⟩ : DrillCommand) ∈ pool :=
      left_mem_of_sumTrav_neg hval (by omega)
    have h2 := hall _ hleft
    simp [isMoveValid] at h2
    omega

lemma buildDrill_complete (pick : Nat → Nat) :
    ∀ (fuel : Nat) (pool acc : List DrillCommand) (t e : Int) (step : Nat),
      pool.length = fuel →
      (∀ c ∈ pool, c.value = 5) →
      sumElevSigned pool = -e → sumTravSigned pool = -t →
      (buildDrill 25 pick fuel pool acc t e step).length = acc.length + fuel := by
  intro fuel
  induction fuel with
  | zero =>
    intro pool acc t e step _ _ _ _
    simp [buildDrill]
  | succ fuel ih =>
    intro pool acc t e step hlen hval hE hT
    have hne : pool ≠ [] := by
      intro hp
      rw [hp] at hlen
      simp at hlen
    have hv : validMoveIndices pool t e 25 ≠ [] :=
      validMoveIndices_ne_nil_of_balanced hval hE hT hne
    rw [buildDrill, if_neg hv]
    have hj : chooseIdx pool t e 25 pick step < pool.length := chooseIdx_lt hv
    have hlen' : (pool.eraseIdx (chooseIdx pool t e 25 pick step)).length = fuel := by
      have := length_eraseIdx_add_one pool _ hj
      omega
    rw [ih (pool.eraseIdx _) (acc ++ [chosenCmd pool t e 25 pick step]) _ _ (step + 1)
      hlen'
      (fun c hc => hval c (mem_of_mem_eraseIdx pool _ c hc))
      (by
        unfold sumElevSigned at *
        rw [sum_map_eraseIdx elevDelta defaultCommand pool _ hj, hE,
          applyCommandE_eq_add]
        show -e - elevDelta (chosenCmd pool t e 25 pick step) =
          -(e + elevDelta (chosenCmd pool t e 25 pick step))
        ring)
      (by
        unfold sumTravSigned at *
        rw [sum_map_eraseIdx travDelta defaultCommand pool _ hj, hT,
          applyCommandT_eq_add]
        show -t - travDelta (chosenCmd pool t e 25 pick step) =
          -(t + travDelta (chosenCmd pool t e 25 pick step))
        ring)]
    simp
    omega

/-! ## Structure of the balanced pool an attempt starts from -/

lemma totalCommands_even (n : Nat) : totalCommands n % 2 = 0 := by
  unfold totalCommands
  split <;> omega

lemma halfCommands_add (n : Nat) : halfCommands n + halfCommands n = totalCommands n := by
  have := totalCommands_even n
  unfold halfCommands
  omega

lemma positiveCommandsOf_length (n : Nat) (cvs : List Int) (pv : Nat → Nat) (coin : Nat → Bool) :
    (positiveCommandsOf n cvs pv coin).length = halfCommands n := by
  simp [positiveCommandsOf]

lemma attemptPool_length (n : Nat) (cvs : List Int) (pv : Nat → Nat) (coin : Nat → Bool) :
    (positiveCommandsOf n cvs pv coin ++
      (positiveCommandsOf n cvs pv coin).map mirrorCommand).length = totalCommands n := by
  rw [List.length_append, List.length_map, positiveCommandsOf_length, halfCommands_add]

lemma mem_positiveCommandsOf_direction {n : Nat} {cvs : List Int} {pv : Nat → Nat}
    {coin : Nat → Bool} {c : DrillCommand} (hc : c ∈ positiveCommandsOf n cvs pv coin) :
    c.direction = Direction.Right ∨ c.direction = Direction.Up := by
  obtain ⟨i, _, rfl⟩ := List.mem_map.mp hc
  cases coin i <;> simp

lemma mem_positiveCommandsOf_value {n : Nat} {cvs : List Int} {pv : Nat → Nat}
    {coin : Nat → Bool} {c : DrillCommand} (hcv : cvs ≠ [])
    (hc : c ∈ positiveCommandsOf n cvs pv coin) : c.value ∈ cvs := by
  obtain ⟨i, _, rfl⟩ := List.mem_map.mp hc
  have hlt : pv i % cvs.length < cvs.length :=
    Nat.mod_lt _ (List.length_pos.mpr hcv)
  exact getD_mem_of_lt cvs _ 0 hlt

lemma mem_attemptPool_value {n : Nat} {cvs : List Int} {pv : Nat → Nat}
    {coin : Nat → Bool} {c : DrillCommand} (hcv : cvs ≠ [])
    (hc : c ∈ positiveCommandsOf n cvs pv coin ++
      (positiveCommandsOf n cvs pv coin).map mirrorCommand) : c.value ∈ cvs := by
  rcases List.mem_append.mp hc with h | h
  · exact mem_positiveCommandsOf_value hcv h
  · obtain ⟨c', hc', rfl⟩ := List.mem_map.mp h
    simpa [mirrorCommand] using mem_positiveCommandsOf_value hcv hc'

lemma elevDelta_add_mirror {c : DrillCommand}
    (h : c.direction = Direction.Right ∨ c.direction = Direction.Up) :
    elevDelta c + elevDelta (mirrorCommand c) = 0 := by
  obtain ⟨dir, v⟩ := c
  rcases h with h | h <;> simp at h <;> subst h <;> simp [elevDelta, mirrorCommand]

lemma travDelta_add_mirror {c : DrillCommand}
    (h : c.direction = Direction.Right ∨ c.direction = Direction.Up) :
    travDelta c + travDelta (mirrorCommand c) = 0 := by
  obtain ⟨dir, v⟩ := c
  rcases h with h | h <;> simp at h <;> subst h <;> simp [travDelta, mirrorCommand]

lemma attemptPool_sumElev (n : Nat) (cvs : List Int) (pv : Nat → Nat) (coin : Nat → Bool) :
    sumElevSigned (positiveCommandsOf n cvs pv coin ++
      (positiveCommandsOf n cvs pv coin).map mirrorCommand) = 0 := by
  unfold sumElevSigned
  rw [List.map_append, List.sum_append, List.map_map,
    sum_map_add_map elevDelta (elevDelta ∘ mirrorCommand)]
  apply List.sum_eq_zero
  intro x hx
  obtain ⟨c, hc, rfl⟩ := List.mem_map.mp hx
  exact elevDelta_add_mirror (mem_positiveCommandsOf_direction hc)

lemma attemptPool_sumTrav (n : Nat) (cvs : List Int) (pv : Nat → Nat) (coin : Nat → Bool) :
    sumTravSigned (positiveCommandsOf n cvs pv coin ++
      (positiveCommandsOf n cvs pv coin).map mirrorCommand) = 0 := by
  unfold sumTravSigned
  rw [List.map_append, List.sum_append, List.map_map,
    sum_map_add_map travDelta (travDelta ∘ mirrorCommand)]
  apply List.sum_eq_zero
  intro x hx
  obtain ⟨c, hc, rfl⟩ := List.mem_map.mp hx
  exact travDelta_add_mirror (mem_positiveCommandsOf_direction hc)

/-! ## What a non-empty generator output must be -/

lemma attemptDrill_eq_buildDrill (n : Nat) (cvs : List Int) (maxT : Int)
    (pv : Nat → Nat) (coin : Nat → Bool) (pm : Nat → Nat) :
    attemptDrill n cvs maxT pv coin pm =
      buildDrill maxT pm
        (positiveCommandsOf n cvs pv coin ++
          (positiveCommandsOf n cvs pv coin).map mirrorCommand).length
        (positiveCommandsOf n cvs pv coin ++
          (positiveCommandsOf n cvs pv coin).map mirrorCommand) [] 0 0 0 := rfl

lemma attemptDrill_perm_pool {n : Nat} {cvs : List Int} {maxT : Int}
    {pv : Nat → Nat} {coin : Nat → Bool} {pm : Nat → Nat}
    (hlen : (attemptDrill n cvs maxT pv coin pm).length = totalCommands n) :
    (attemptDrill n cvs maxT pv coin pm).Perm
      (positiveCommandsOf n cvs pv coin ++
        (positiveCommandsOf n cvs pv coin).map mirrorCommand) := by
  obtain ⟨d, hd, hsub⟩ := buildDrill_subperm maxT pm
    (positiveCommandsOf n cvs pv coin ++
      (positiveCommandsOf n cvs pv coin).map mirrorCommand).length
    (positiveCommandsOf n cvs pv coin ++
      (positiveCommandsOf n cvs pv coin).map mirrorCommand) [] 0 0 0 rfl
  rw [attemptDrill_eq_buildDrill, hd]
  rw [attemptDrill_eq_buildDrill, hd] at hlen
  simp only [List.nil_append] at *
  exact subperm_of_length_eq hsub (by rw [hlen, attemptPool_length])

lemma generateDrillGo_cases (n : Nat) (cvs : List Int) (maxT : Int) (o : Oracle) :
    ∀ (fuel att : Nat),
      (generateDrillGo n cvs maxT o fuel att).1 = [] ∨
      ∃ a, (generateDrillGo n cvs maxT o fuel att).1 =
          attemptDrill n cvs maxT (o.pickVal a) (o.coin a) (o.pickMove a) ∧
        ((generateDrillGo n cvs maxT o fuel att).1).length = totalCommands n := by
  intro fuel
  induction fuel with
  | zero => intro att; exact Or.inl rfl
  | succ fuel ih =>
    intro att
    rw [generateDrillGo]
    by_cases h : (attemptDrill n cvs maxT (o.pickVal att) (o.coin att) (o.pickMove att)).length =
        totalCommands n
    · right
      exact ⟨att, by simp [h], by simp [h]⟩
    · simpa [h] using ih (att + 1)

lemma generateDrill_success {n : Nat} {cvs : List Int} {maxT : Int} {o : Oracle}
    (h : generateDrill n cvs maxT o ≠ []) :
    cvs ≠ [] ∧ (∀ v ∈ cvs, v ≤ maxT) ∧
    ∃ a, generateDrill n cvs maxT o =
        attemptDrill n cvs maxT (o.pickVal a) (o.coin a) (o.pickMove a) ∧
      (generateDrill n cvs maxT o).length = totalCommands n := by
  unfold generateDrill generateDrillRun at *
  by_cases hg : cvs.length = 0 ∨ ∃ v ∈ cvs, maxT < v
  · rw [if_pos hg] at h
    exact absurd rfl h
  · rw [if_neg hg] at h ⊢
    push_neg at hg
    refine ⟨fun hn => hg.1 (by rw [hn]; rfl), fun v hv => hg.2 v hv, ?_⟩
    rcases generateDrillGo_cases n cvs maxT o MAX_GENERATION_ATTEMPTS 0 with h0 | h0
    · exact absurd h0 h
    · exact h0

/-! ## Keys of the utterance cache after `preload` -/

lemma mapSet_keys_mem (m : List (String × Utterance)) (k : String) (v : Utterance) (q : String) :
    q ∈ (mapSet m k v).map Prod.fst ↔ q ∈ m.map Prod.fst ∨ q = k := by
  unfold mapSet
  by_cases h : m.any (fun p => decide (p.1 = k))
  · rw [if_pos h]
    have hkeys : (m.map (fun p => if p.1 = k then (k, v) else p)).map Prod.fst =
        m.map Prod.fst := by
      rw [List.map_map]
      apply List.map_congr_left
      intro p _
      by_cases hpk : p.1 = k
      · simp [hpk]
      · simp [hpk]
    rw [hkeys]
    have hk : k ∈ m.map Prod.fst := by
      rw [List.any_eq_true] at h
      obtain ⟨p, hp, hpk⟩ := h
      rw [decide_eq_true_eq] at hpk
      exact List.mem_map.mpr ⟨p, hp, hpk⟩
    constructor
    · exact Or.inl
    · rintro (hq | rfl)
      · exact hq
      · exact hk
  · rw [if_neg h, List.map_append]
    simp

lemma mapSet_keys_nodup {m : List (String × Utterance)} {k : String} {v : Utterance}
    (h : (m.map Prod.fst).Nodup) : ((mapSet m k v).map Prod.fst).Nodup := by
  unfold mapSet
  by_cases ha : m.any (fun p => decide (p.1 = k))
  · rw [if_pos ha]
    have hkeys : (m.map (fun p => if p.1 = k then (k, v) else p)).map Prod.fst =
        m.map Prod.fst := by
      rw [List.map_map]
      apply List.map_congr_left
      intro p _
      by_cases hpk : p.1 = k
      · simp [hpk]
      · simp [hpk]
    rw [hkeys]
    exact h
  · rw [if_neg ha, List.map_append]
    rw [List.nodup_append]
    refine ⟨h, List.nodup_singleton k, ?_⟩
    intro q hq hq'
    simp only [List.map_cons, List.map_nil, List.mem_singleton] at hq'
    subst hq'
    obtain ⟨p, hp, hpk⟩ := List.mem_map.mp hq
    exact ha (List.any_eq_true.mpr ⟨p, hp, decide_eq_true_eq.mpr hpk⟩)

lemma exists_direction_iff (P : Direction → Prop) :
    (∃ d, P d) ↔ P Direction.Up ∨ P Direction.Down ∨ P Direction.Left ∨ P Direction.Right := by
  constructor
  · rintro ⟨d, hd⟩
    cases d <;> tauto
  · rintro (h | h | h | h) <;> exact ⟨_, h⟩

lemma preloadValue_keys_mem (m : List (String × Utterance)) (v : Int) (q : String) :
    q ∈ (preloadValue m v).map Prod.fst ↔
      q ∈ m.map Prod.fst ∨ ∃ d, q = commandToKey ⟨d, v⟩ := by
  show q ∈ (mapSet (mapSet (mapSet (mapSet m _ _) _ _) _ _) _ _).map Prod.fst ↔ _
  rw [mapSet_keys_mem, mapSet_keys_mem, mapSet_keys_mem, mapSet_keys_mem,
    exists_direction_iff (fun d => q = commandToKey ⟨d, v⟩)]
  tauto

lemma preloadValue_keys_nodup {m : List (String × Utterance)} (v : Int)
    (h : (m.map Prod.fst).Nodup) : ((preloadValue m v).map Prod.fst).Nodup := by
  show ((mapSet (mapSet (mapSet (mapSet m _ _) _ _) _ _) _ _).map Prod.fst).Nodup
  exact mapSet_keys_nodup (mapSet_keys_nodup (mapSet_keys_nodup (mapSet_keys_nodup h)))

lemma preloadFold_keys_mem :
    ∀ (clickValues : List Int) (m : List (String × Utterance)) (q : String),
      q ∈ (clickValues.foldl preloadValue m).map Prod.fst ↔
        q ∈ m.map Prod.fst ∨ ∃ v ∈ clickValues, ∃ d, q = commandToKey ⟨d, v⟩ := by
  intro clickValues
  induction clickValues with
  | nil => intro m q; simp
  | cons a cvs ih =>
    intro m q
    rw [List.foldl_cons, ih, preloadValue_keys_mem]
    simp only [List.mem_cons]
    constructor
    · rintro ((hq | ⟨d, hd⟩) | ⟨v, hv, d, hd⟩)
      · exact Or.inl hq
      · exact Or.inr ⟨a, Or.inl rfl, d, hd⟩
      · exact Or.inr ⟨v, Or.inr hv, d, hd⟩
    · rintro (hq | ⟨v, hv | hv, d, hd⟩)
      · exact Or.inl (Or.inl hq)
      · exact Or.inl (Or.inr ⟨d, by rw [hd, hv]⟩)
      · exact Or.inr ⟨v, hv, d, hd⟩

lemma preloadFold_keys_nodup :
    ∀ (clickValues : List Int) (m : List (String × Utterance)),
      (m.map Prod.fst).Nodup → ((clickValues.foldl preloadValue m).map Prod.fst).Nodup := by
  intro clickValues
  induction clickValues with
  | nil => intro m h; exact h
  | cons a cvs ih =>
    intro m h
    rw [List.foldl_cons]
    exact ih _ (preloadValue_keys_nodup a h)

lemma preload_keys_mem (cache : List (String × Utterance)) (clickValues : List Int) (q : String) :
    q ∈ (preload true cache clickValues).map Prod.fst ↔
      ∃ v ∈ clickValues, ∃ d, q = commandToKey ⟨d, v⟩ := by
  show q ∈ (clickValues.foldl preloadValue []).map Prod.fst ↔ _
  rw [preloadFold_keys_mem]
  simp

lemma preload_keys_nodup (cache : List (String × Utterance)) (clickValues : List Int) :
    ((preload true cache clickValues).map Prod.fst).Nodup := by
  show ((clickValues.foldl preloadValue []).map Prod.fst).Nodup
  exact preloadFold_keys_nodup clickValues [] (by simp)

/-! ## Claim theorems -/

lemma generateDrill_take_inBounds_aux (numCommands : Nat) (clickValues : List Int)
    (maxTAndE : Int) (o : Oracle) (hpos : ∀ v ∈ clickValues, 0 < v)
    (hne : generateDrill numCommands clickValues maxTAndE o ≠ []) :
    ∀ k : Nat,
      inBounds (posAfter ((generateDrill numCommands clickValues maxTAndE o).take k))
        maxTAndE := by
  obtain ⟨hcv, hle, a, ha, -⟩ := generateDrill_success hne
  obtain ⟨v, hv⟩ := List.exists_mem_of_ne_nil clickValues hcv
  have hmax : 0 < maxTAndE := lt_of_lt_of_le (hpos v hv) (hle v hv)
  rw [ha, attemptDrill_eq_buildDrill]
  refine buildDrill_bounds maxTAndE (o.pickMove a) _ _ [] 0 0 0 rfl ?_ rfl ?_
  · intro c hc
    exact hpos _ (mem_attemptPool_value hcv hc)
  · intro k
    show inBounds (posAfter (List.take k [])) maxTAndE
    rw [List.take_nil]
    show inBounds (0, 0) maxTAndE
    unfold inBounds
    refine ⟨by omega, by omega, by omega, by omega⟩

/-- C1: for every configuration (click values positive, as `GenerationConfig`
requires) on which `generateDrill` returns a non-empty sequence, every prefix
of that sequence, applied as signed deltas from (0,0), keeps both the
traverse and the elevation axis within `[-maxTAndE, maxTAndE]`. -/
theorem generateDrill_take_inBounds (numCommands : Nat) (clickValues : List Int)
    (maxTAndE : Int) (o : Oracle) (hpos : ∀ v ∈ clickValues, 0 < v)
    (hne : generateDrill numCommands clickValues maxTAndE o ≠ []) :
    ∀ k : Nat,
      inBounds (posAfter ((generateDrill numCommands clickValues maxTAndE o).take k))
        maxTAndE :=
  generateDrill_take_inBounds_aux numCommands clickValues maxTAndE o hpos hne

/-- Witness for C1 at the concrete feasible configuration
(2 commands, click values {5}, bound 25) under the all-zero oracle. -/
theorem generateDrill_take_inBounds_w :
    inBounds (posAfter ((generateDrill 2 [5] 25 zeroOracle).take 1)) 25 :=
  generateDrill_take_inBounds 2 [5] 25 zeroOracle (by decide) (by decide) 1

lemma generateDrill_zero_sum_aux (numCommands : Nat) (clickValues : List Int)
    (maxTAndE : Int) (o : Oracle)
    (hne : generateDrill numCommands clickValues maxTAndE o ≠ []) :
    sumElevSigned (generateDrill numCommands clickValues maxTAndE o) = 0 ∧
    sumTravSigned (generateDrill numCommands clickValues maxTAndE o) = 0 := by
  obtain ⟨-, -, a, ha, hlen⟩ := generateDrill_success hne
  rw [ha] at hlen ⊢
  have hperm := attemptDrill_perm_pool hlen
  constructor
  · rw [sumElevSigned, (hperm.map elevDelta).sum_eq]
    exact attemptPool_sumElev numCommands clickValues (o.pickVal a) (o.coin a)
  · rw [sumTravSigned, (hperm.map travDelta).sum_eq]
    exact attemptPool_sumTrav numCommands clickValues (o.pickVal a) (o.coin a)

/-- C2: for every configuration on which `generateDrill` returns a non-empty
sequence, the signed sum of the elevation-axis magnitudes (Up positive, Down
negative) is 0, and the signed sum of the traverse-axis magnitudes (Right
positive, Left negative) is 0. -/
theorem generateDrill_zero_sum (numCommands : Nat) (clickValues : List Int)
    (maxTAndE : Int) (o : Oracle)
    (hne : generateDrill numCommands clickValues maxTAndE o ≠ []) :
    sumElevSigned (generateDrill numCommands clickValues maxTAndE o) = 0 ∧
    sumTravSigned (generateDrill numCommands clickValues maxTAndE o) = 0 :=
  generateDrill_zero_sum_aux numCommands clickValues maxTAndE o hne

/-- Witness for C2 at the concrete feasible configuration
(2 commands, click values {5}, bound 25) under the all-zero oracle. -/
theorem generateDrill_zero_sum_w :
    sumElevSigned (generateDrill 2 [5] 25 zeroOracle) = 0 ∧
    sumTravSigned (generateDrill 2 [5] 25 zeroOracle) = 0 :=
  generateDrill_zero_sum 2 [5] 25 zeroOracle (by decide)

/-- C3: for every configuration on which `generateDrill` returns a non-empty
sequence, its length is `numCommands` rounded up to the nearest even integer:
`numCommands` itself when even, `numCommands + 1` when odd. -/
theorem generateDrill_length_even (numCommands : Nat) (clickValues : List Int)
    (maxTAndE : Int) (o : Oracle)
    (hne : generateDrill numCommands clickValues maxTAndE o ≠ []) :
    (generateDrill numCommands clickValues maxTAndE o).length =
      if numCommands % 2 = 0 then numCommands else numCommands + 1 := by
  obtain ⟨-, -, a, -, hlen⟩ := generateDrill_success hne
  rw [hlen]
  rfl

/-- Witness for C3 at the odd command count 3 (rounded up to 4) with click
values {5} and bound 25 under the all-zero oracle. -/
theorem generateDrill_length_even_w :
    (generateDrill 3 [5] 25 zeroOracle).length = if 3 % 2 = 0 then 3 else 3 + 1 :=
  generateDrill_length_even 3 [5] 25 zeroOracle (by decide)

/-- C4: whenever `clickValues` is empty or contains a value strictly greater
than `maxTAndE`, `generateDrill` returns the empty sequence immediately with
zero generation attempts performed (`generateDrillRun` pairs the output
sequence with the attempt count). -/
theorem generateDrill_infeasible (numCommands : Nat) (clickValues : List Int)
    (maxTAndE : Int) (o : Oracle)
    (h : clickValues = [] ∨ ∃ v ∈ clickValues, maxTAndE < v) :
    generateDrillRun numCommands clickValues maxTAndE o = ([], 0) := by
  unfold generateDrillRun
  rw [if_pos]
  rcases h with h | h
  · exact Or.inl (by rw [h]; rfl)
  · exact Or.inr h

/-- Witness for C4 at the infeasible configuration whose only click value 30
exceeds the bound 25. -/
theorem generateDrill_infeasible_w :
    generateDrillRun 4 [30] 25 zeroOracle = ([], 0) :=
  generateDrill_infeasible 4 [30] 25 zeroOracle (Or.inr ⟨30, by decide, by decide⟩)

/-- C5: `isMoveValid` is a total deterministic function (it is a Lean
function of exactly its inputs) returning true per the four direction
conditions, and on the concrete inputs of the claim: from
(traverse 20, elevation 0) with bound 25, Right 10 is invalid while
Right 5 is valid. -/
theorem isMoveValid_spec :
    (∀ v t e b : Int, isMoveValid ⟨Direction.Up, v⟩ t e b = true ↔ e + v ≤ b) ∧
    (∀ v t e b : Int, isMoveValid ⟨Direction.Down, v⟩ t e b = true ↔ e - v ≥ -b) ∧
    (∀ v t e b : Int, isMoveValid ⟨Direction.Left, v⟩ t e b = true ↔ t - v ≥ -b) ∧
    (∀ v t e b : Int, isMoveValid ⟨Direction.Right, v⟩ t e b = true ↔ t + v ≤ b) ∧
    isMoveValid ⟨Direction.Right, 10⟩ 20 0 25 = false ∧
    isMoveValid ⟨Direction.Right, 5⟩ 20 0 25 = true := by
  refine ⟨?_, ?_, ?_, ?_, by decide, by decide⟩ <;>
    intro v t e b <;> simp [isMoveValid]

lemma generateDrillGo_first_success {n : Nat} {cvs : List Int} {maxT : Int} {o : Oracle}
    {fuel att : Nat}
    (h : (attemptDrill n cvs maxT (o.pickVal att) (o.coin att) (o.pickMove att)).length =
      totalCommands n) :
    generateDrillGo n cvs maxT o (fuel + 1) att =
      (attemptDrill n cvs maxT (o.pickVal att) (o.coin att) (o.pickMove att), att + 1) := by
  rw [generateDrillGo]
  simp [h]

lemma scenario_pool_values {o : Oracle} {a : Nat} :
    ∀ c ∈ positiveCommandsOf 4 [5] (o.pickVal a) (o.coin a) ++
      (positiveCommandsOf 4 [5] (o.pickVal a) (o.coin a)).map mirrorCommand,
      c.value = (5 : Int) := by
  intro c hc
  have := mem_attemptPool_value (show ([5] : List Int) ≠ [] by simp) hc
  simpa using this

lemma scenario_attempt_length (o : Oracle) (a : Nat) :
    (attemptDrill 4 [5] 25 (o.pickVal a) (o.coin a) (o.pickMove a)).length =
      totalCommands 4 := by
  rw [attemptDrill_eq_buildDrill]
  rw [buildDrill_complete (o.pickMove a) _ _ [] 0 0 0 rfl scenario_pool_values
    (by rw [attemptPool_sumElev]; rfl) (by rw [attemptPool_sumTrav]; rfl)]
  rw [List.length_nil, Nat.zero_add, attemptPool_length]

lemma scenario_generateDrill_eq (o : Oracle) :
    generateDrill 4 [5] 25 o =
      attemptDrill 4 [5] 25 (o.pickVal 0) (o.coin 0) (o.pickMove 0) := by
  unfold generateDrill generateDrillRun
  rw [if_neg (by decide)]
  rw [show generateDrillGo 4 [5] 25 o MAX_GENERATION_ATTEMPTS 0 =
    generateDrillGo 4 [5] 25 o (9 + 1) 0 from rfl]
  rw [generateDrillGo_first_success (scenario_attempt_length o 0)]

/-- C6: for the configuration `numCommands = 4`, `clickValues = {5}`,
`maxTAndE = 25`, every outcome of the random choices makes `generateDrill`
produce exactly 4 commands (so never an empty output), each of magnitude 5,
with net displacement (0,0) on both axes, and with no prefix position ever
exceeding ±25 on either axis. -/
theorem generateDrill_scenario_4_5_25 (o : Oracle) :
    (generateDrill 4 [5] 25 o).length = 4 ∧
    generateDrill 4 [5] 25 o ≠ [] ∧
    (∀ c ∈ generateDrill 4 [5] 25 o, c.value = 5) ∧
    sumElevSigned (generateDrill 4 [5] 25 o) = 0 ∧
    sumTravSigned (generateDrill 4 [5] 25 o) = 0 ∧
    ∀ k : Nat, inBounds (posAfter ((generateDrill 4 [5] 25 o).take k)) 25 := by
  have heq := scenario_generateDrill_eq o
  have hlen : (generateDrill 4 [5] 25 o).length = totalCommands 4 := by
    rw [heq]
    exact scenario_attempt_length o 0
  have hlen4 : (generateDrill 4 [5] 25 o).length = 4 := hlen
  have hne : generateDrill 4 [5] 25 o ≠ [] := by
    intro h
    rw [h] at hlen4
    simp at hlen4
  have hperm := attemptDrill_perm_pool (heq ▸ hlen)
  refine ⟨hlen4, hne, ?_, ?_, ?_, ?_⟩
  · intro c hc
    rw [heq] at hc
    exact scenario_pool_values c (hperm.mem_iff.mp hc)
  · have := generateDrill_zero_sum_aux 4 [5] 25 o hne
    exact this.1
  · have := generateDrill_zero_sum_aux 4 [5] 25 o hne
    exact this.2
  · exact generateDrill_take_inBounds_aux 4 [5] 25 o (by decide) hne

/-- C7 counterexample: at `interval = 0.94` seconds, the interval falls
0.06s below one second, which is zero FULL 0.1s steps, so the claimed rule
gives rate 2.0 — but the code rounds `(1 - 0.94) * 10 = 0.6` to the nearest
integer, `1`, and returns 2.3. -/
theorem calculateAutoSpeed_floor_cex :
    calculateAutoSpeed (47/50) = 23/10 ∧ autoSpeedSpecFloor (47/50) = 2 ∧
    calculateAutoSpeed (47/50) ≠ autoSpeedSpecFloor (47/50) := by
  refine ⟨?_, ?_, ?_⟩ <;> norm_num [calculateAutoSpeed, autoSpeedSpecFloor, jsRound]

/-- C7 (amended): the automatic rate is the base 2.0 for every interval of
at least one second; below one second it is 2.0 plus 0.3 per 0.1s step, the
step count being `(1 - interval) * 10` rounded to the NEAREST integer (which
agrees with the claimed "full 0.1s" floor count whenever the interval is a
whole multiple of 0.1s); the particulars 1.0 → 2.0, 0.7 → 2.9, 1.5 → 2.0
hold, and every rate `play` hands the utterance is clamped into [0.5, 10]. -/
theorem calculateAutoSpeed_spec :
    calculateAutoSpeed 1 = 2 ∧
    calculateAutoSpeed (7/10) = 29/10 ∧
    calculateAutoSpeed (3/2) = 2 ∧
    (∀ i : ℚ, 1 ≤ i → calculateAutoSpeed i = 2) ∧
    (∀ i : ℚ, i < 1 →
      calculateAutoSpeed i = 2 + (jsRound ((1 - i) * 10) : ℚ) * (3/10)) ∧
    (∀ (sup : Bool) (cache : List (String × Utterance)) (c : DrillCommand) (i : ℚ)
        (m : Bool) (s r : ℚ),
      SpeechAction.speak r ∈ play sup cache c i m s → 1/2 ≤ r ∧ r ≤ 10) := by
  refine ⟨by norm_num [calculateAutoSpeed, jsRound],
    by norm_num [calculateAutoSpeed, jsRound],
    by norm_num [calculateAutoSpeed, jsRound], ?_, ?_, ?_⟩
  · intro i hi
    unfold calculateAutoSpeed
    rw [if_pos hi]
  · intro i hi
    unfold calculateAutoSpeed
    rw [if_neg (not_le.mpr hi)]
  · intro sup cache c i m s r h
    cases sup with
    | false => simp [play] at h
    | true =>
      rcases hm : mapGet cache (commandToKey c) with _ | u
      · simp [play, hm] at h
      · simp only [play, hm, Bool.not_true, Bool.false_eq_true, if_false,
          List.mem_cons, List.mem_singleton] at h
        rcases h with h | h
        · exact absurd h (by simp)
        · rcases h with h | h
          · injection h with h
            subst h
            exact ⟨le_min (by norm_num) (le_max_left _ _), min_le_left _ _⟩
          · simp at h

/-- C8 counterexample: with the empty input sequence (index 0, last
simulated position (0,0)) the DrillRunner effect does NOT call `onFinish`:
the `commands.length > 0` guard fails, so no final position is delivered,
while the claim requires immediate delivery. -/
theorem drillRunnerStep_empty_cex :
    drillRunnerStep ([] : List DrillCommand) 0 (0, 0) = none ∧
    drillRunnerStep ([] : List DrillCommand) 0 (0, 0) ≠ some (0, 0) := by
  exact ⟨rfl, by decide⟩

/-- C8 (amended): the DrillRunner effect delivers the last simulated
position to `onFinish` immediately exactly when the current index has no
command AND the command list is non-empty (the prematurely-cleared-to-a-
shorter-list case); an initially empty input sequence never triggers an
immediate finish — the component renders a loading placeholder instead. -/
theorem drillRunnerStep_spec (commands : List DrillCommand) (currentCommandIndex : Nat)
    (lastPos : Int × Int) :
    drillRunnerStep commands currentCommandIndex lastPos =
      if commands.get? currentCommandIndex = none ∧ 0 < commands.length then some lastPos
      else none := by
  unfold drillRunnerStep
  cases hm : commands.get? currentCommandIndex with
  | none => simp
  | some c => simp

/-- C9 counterexample: `play` called (supported platform, empty cache) on a
command that was not pre-cached returns after only warning — the claim's
"cancels any in-flight speech cue before playing, for every input command"
fails, because the early return precedes the `cancel()` call. -/
theorem play_uncached_no_cancel_cex :
    SpeechAction.cancel ∉ play true [] ⟨Direction.Up, 5⟩ 1 false 2 := by
  decide

/-- C9 (amended): `play` cancels the in-flight cue exactly when the platform
is supported and the requested command's utterance is pre-cached; when the
command is not pre-cached, `play` returns without cancelling and emits no
speech — the silent degraded mode. -/
theorem play_cancel_spec (sup : Bool) (cache : List (String × Utterance)) (c : DrillCommand)
    (i : ℚ) (m : Bool) (s : ℚ) :
    (SpeechAction.cancel ∈ play sup cache c i m s ↔
      sup = true ∧ (mapGet cache (commandToKey c)).isSome = true) ∧
    (mapGet cache (commandToKey c) = none →
      ∀ r : ℚ, SpeechAction.speak r ∉ play sup cache c i m s) := by
  cases sup <;> rcases hm : mapGet cache (commandToKey c) with _ | u <;> simp [play, hm]

/-- C10: after `preload(clickValues)` on a supported platform the utterance
cache holds exactly one entry for each (direction, value) pair with the
direction ranging over the four directions and the value over `clickValues`,
and nothing else — in particular no entry of any earlier cache remains,
because the cache is cleared first (the result does not depend on the prior
cache at all). -/
theorem preload_cache_spec (cache : List (String × Utterance)) (clickValues : List Int) :
    preload true cache clickValues = preload true [] clickValues ∧
    (∀ (d : Direction) (v : Int), v ∈ clickValues →
      ((preload true cache clickValues).map Prod.fst).count (commandToKey ⟨d, v⟩) = 1) ∧
    (∀ k : String, (∀ (d : Direction) (v : Int), v ∈ clickValues → k ≠ commandToKey ⟨d, v⟩) →
      ((preload true cache clickValues).map Prod.fst).count k = 0) := by
  refine ⟨rfl, ?_, ?_⟩
  · intro d v hv
    exact List.count_eq_one_of_mem (preload_keys_nodup cache clickValues)
      ((preload_keys_mem cache clickValues _).mpr ⟨v, hv, d, rfl⟩)
  · intro k hk
    refine List.count_eq_zero.mpr ?_
    intro hmem
    obtain ⟨v, hv, d, hd⟩ := (preload_keys_mem cache clickValues k).mp hmem
    exact hk d v hv hd
